import Mathlib

set_option maxHeartbeats 1000000
set_option maxRecDepth 10000

/- Shallow embedding of the postcss-token-utilities engine
   (src/index.ts together with the rule tables of src/default-config.ts).

   Modelling conventions:
   - JS strings are Lean String (a wrapper around List Char); the UTF-16
     versus scalar-value distinction is irrelevant for the inputs considered.
   - JS Map and plain-object dictionaries are association lists with JS
     semantics: set updates the first binding in place and appends a fresh
     binding at the end when the key is absent.
   - The regular-expression scans of the source are implemented as explicit
     character-level scanners.  Each regex used by the source is
     backtracking-free on its character classes (adjacent classes are
     disjoint), so a deterministic maximal-munch scan is exact.
   - All functions are total; the source never throws on the modelled paths. -/

/-- JS Map.set / object key assignment: update the first binding with this key
in place, append a fresh binding at the end when the key is absent. -/
def setA {α : Type} : List (String × α) → String → α → List (String × α)
  | [], k, v => [(k, v)]
  | p :: rest, k, v => if p.1 = k then (k, v) :: rest else p :: setA rest k v

/-- JS Map.get / object key read: value of the first binding with this key. -/
def lookupA {α : Type} : List (String × α) → String → Option α
  | [], _ => none
  | p :: rest, k => if p.1 = k then some p.2 else lookupA rest k

/-- Option alternative, first value wins (used to state fold lemmas). -/
def orO {α : Type} : Option α → Option α → Option α
  | some x, _ => some x
  | none, y => y

/-- JS new Set(list) iteration order: deduplicate keeping first occurrences. -/
def dedupFirstAux : List String → List String → List String
  | _, [] => []
  | seen, c :: rest =>
    if c ∈ seen then dedupFirstAux seen rest else c :: dedupFirstAux (c :: seen) rest

/-- Deduplicate a list of strings preserving the first occurrence of each. -/
def dedupFirst (l : List String) : List String := dedupFirstAux [] l

/-- Does the second list start with the first one (JS String.startsWith)? -/
def leadsWith : List Char → List Char → Bool
  | [], _ => true
  | _ :: _, [] => false
  | p :: ps, c :: cs => decide (p = c) && leadsWith ps cs

/-- Does the second list contain the first as a contiguous run
(JS String.includes)? -/
def hasSubstr (pat : List Char) : List Char → Bool
  | [] => leadsWith pat []
  | c :: rest => leadsWith pat (c :: rest) || hasSubstr pat rest

/-- Does the list contain this character (JS String.includes on one char)? -/
def hasChar (s : List Char) (c0 : Char) : Bool := s.any (fun c => decide (c = c0))

/-- Match a literal character sequence at the front, returning the rest. -/
def matchLit : List Char → List Char → Option (List Char)
  | [], s => some s
  | _ :: _, [] => none
  | p :: ps, c :: cs => if p = c then matchLit ps cs else none

/-- The whitespace class of the JS regexes used by the source (the rarely
relevant unicode space code points are omitted). -/
def jsWs (c : Char) : Bool :=
  decide (c = ' ') || decide (c = '\t') || decide (c = '\n') || decide (c = '\r') ||
    decide (c = '\x0b') || decide (c = '\x0c')

/-- The JS regex word class backslash-w: ASCII letters, digits, underscore. -/
def isWordChar (c : Char) : Bool :=
  (decide ('a' ≤ c) && decide (c ≤ 'z')) || (decide ('A' ≤ c) && decide (c ≤ 'Z')) ||
    (decide ('0' ≤ c) && decide (c ≤ '9')) || decide (c = '_')

/-- Character class of a custom-property name in parseTokens: word or hyphen. -/
def isVarNameChar (c : Char) : Bool := isWordChar c || decide (c = '-')

/-- Character class of a custom-media name in parseMedia: lowercase ASCII
letter, digit, or hyphen. -/
def mediaNameChar (c : Char) : Bool :=
  (decide ('a' ≤ c) && decide (c ≤ 'z')) || (decide ('0' ≤ c) && decide (c ≤ '9')) ||
    decide (c = '-')

/-- The character class accepted by ClassExtractor.isValidClassName: ASCII
letters, digits, underscore, colon, dot, hyphen. -/
def validChar (c : Char) : Bool :=
  (decide ('a' ≤ c) && decide (c ≤ 'z')) || (decide ('A' ≤ c) && decide (c ≤ 'Z')) ||
    (decide ('0' ≤ c) && decide (c ≤ '9')) || decide (c = '_') || decide (c = ':') ||
    decide (c = '.') || decide (c = '-')

/-- ClassExtractor.isValidClassName of src/index.ts: the validity filter for
candidate class names extracted from scanned source text. -/
def isValidClassName (s : String) : Bool :=
  if decide (s.length = 0) || decide (s.length > 100) then false
  else if hasSubstr "://".data s.data || hasChar s.data '\\' || leadsWith "/".data s.data ||
      hasChar s.data '(' || hasChar s.data '\x7b' || hasChar s.data '[' then false
  else s.data.all validChar

/-- One step of the first :root block match: the text after a literal ":root",
optional whitespace and an opening brace, when they are present here. -/
def matchRootAt (s : List Char) : Option (List Char) :=
  match matchLit ":root".data s with
  | none => none
  | some r =>
    match r.dropWhile jsWs with
    | '\x7b' :: rest => some rest
    | _ => none

/-- The characters before the first closing brace, when one exists (the lazy
group of the :root regex stops at the first closing brace). -/
def takeUntilBrace : List Char → Option (List Char)
  | [] => none
  | c :: rest =>
    if c = '\x7d' then some []
    else
      match takeUntilBrace rest with
      | none => none
      | some l => some (c :: l)

/-- The body of the first ":root { ... }" block of the text, when the regex of
parseTokens matches.  When a ":root {" occurrence has no later closing brace,
no later occurrence can have one either, so the whole scan fails exactly as
the regex does. -/
def findRootBlock : List Char → Option (List Char)
  | [] => none
  | c :: rest =>
    match matchRootAt (c :: rest) with
    | some after => takeUntilBrace after
    | none => findRootBlock rest

/-- One attempted match of the custom-property regex of parseTokens at the
current position: two hyphens, a nonempty name of word-or-hyphen characters,
optional whitespace, a colon, then the value group; yields the name, the
value, and the rest of the text after the match. -/
def matchVarAt (s : List Char) : Option (String × String × List Char) :=
  match matchLit "--".data s with
  | none => none
  | some rest =>
    let name := rest.takeWhile isVarNameChar
    if name.isEmpty then none
    else
      let r1 := (rest.drop name.length).dropWhile jsWs
      match r1 with
      | ':' :: t =>
        let pval := t.takeWhile (fun c => decide (c ≠ ';'))
        if pval.isEmpty then none
        else
          let body := pval.dropWhile jsWs
          let value := if body.isEmpty then pval.drop (pval.length - 1) else body
          some (⟨name⟩, ⟨value⟩, t.drop pval.length)
      | _ => none

/-- Fuelled global scan of the custom-property regex: try a match at every
position, resuming after each successful match.  Every step consumes at least
one character, so fuel equal to the length never truncates the scan. -/
def scanVarsFuel : Nat → List Char → List (String × String)
  | 0, _ => []
  | _ + 1, [] => []
  | fuel + 1, c :: cs =>
    match matchVarAt (c :: cs) with
    | some (n, v, rest) => (n, v) :: scanVarsFuel fuel rest
    | none => scanVarsFuel fuel cs

/-- All (name, value) pairs matched by the custom-property regex, in order. -/
def scanVars (s : List Char) : List (String × String) := scanVarsFuel s.length s

/-- One attempted match of the custom-media regex of parseMedia at the current
position: a literal "@custom-media", whitespace, two hyphens, a nonempty
lowercase name, whitespace, then a parenthesised nonempty condition. -/
def matchMediaAt (s : List Char) : Option (String × String × List Char) :=
  match matchLit "@custom-media".data s with
  | none => none
  | some r0 =>
    let ws1 := r0.takeWhile jsWs
    if ws1.isEmpty then none
    else
      match matchLit "--".data (r0.drop ws1.length) with
      | none => none
      | some r1 =>
        let name := r1.takeWhile mediaNameChar
        if name.isEmpty then none
        else
          let r2 := r1.drop name.length
          let ws2 := r2.takeWhile jsWs
          if ws2.isEmpty then none
          else
            match r2.drop ws2.length with
            | '(' :: r3 =>
              let cond := r3.takeWhile (fun c => decide (c ≠ ')'))
              if cond.isEmpty then none
              else
                match r3.drop cond.length with
                | ')' :: r4 => some (⟨name⟩, ⟨cond⟩, r4)
                | _ => none
            | _ => none

/-- Fuelled global scan of the custom-media regex. -/
def scanMediaFuel : Nat → List Char → List (String × String)
  | 0, _ => []
  | _ + 1, [] => []
  | fuel + 1, c :: cs =>
    match matchMediaAt (c :: cs) with
    | some (n, v, rest) => (n, v) :: scanMediaFuel fuel rest
    | none => scanMediaFuel fuel cs

/-- All (name, condition) pairs matched by the custom-media regex, in order. -/
def scanMedia (s : List Char) : List (String × String) := scanMediaFuel s.length s

/-- StaticRule of src/index.ts (field class is renamed className, a Lean
keyword clash; the spec uses the same name). -/
structure StaticRule where
  className : String
  css : String
deriving DecidableEq

/-- TokenRule of src/index.ts (field prefix is renamed classPrefix, following
the spec, to avoid a Lean keyword clash); css is the builder closure. -/
structure TokenRule where
  token : String
  classPrefix : String
  css : String → String → String

/-- VariantRule of src/index.ts.  The condition and selector fields are
Option String: although the TypeScript annotations require them, rules loaded
from user rule files are not checked at runtime, and the generator guards them
with JS truthiness (absent and empty both count as missing). -/
inductive VariantRule where
  | pseudo (name : String)
  | media (name : String) (condition : Option String)
  | ancestor (name : String) (selector : Option String)
deriving DecidableEq

/-- JS truthiness of an optional string: present and nonempty. -/
def truthy : Option String → Bool
  | none => false
  | some s => decide (s ≠ "")

/-- The name of a variant rule. -/
def variantName : VariantRule → String
  | .pseudo n => n
  | .media n _ => n
  | .ancestor n _ => n

/-- Is the field the generator requires present (condition for media,
selector for ancestor, nothing for pseudo)? -/
def requiredPresent : VariantRule → Bool
  | .pseudo _ => true
  | .media _ cond => truthy cond
  | .ancestor _ sel => truthy sel

/-- The effective rule set held by UtilityGenerator.rules after construction:
defaults (when enabled) followed by extensions, per kind. -/
structure RuleSet where
  static : List StaticRule
  token : List TokenRule
  variant : List VariantRule

/-- DesignTokens of src/index.ts: category to key to recorded value. -/
abbrev DesignTokens := List (String × List (String × String))

/-- The token categories considered by parseTokens: the token fields of the
registered token rules, deduplicated preserving first occurrences. -/
def tokenCategories (rules : List TokenRule) : List String :=
  dedupFirst (rules.map (fun r => r.token))

/-- The reference recorded for a declared custom property (never its value). -/
def mkRef (name : String) : String := "var(--" ++ name ++ ")"

/-- varName.substring(cat.length + 1): the key part after the category and
its hyphen. -/
def keyAfter (cat name : String) : String := ⟨name.data.drop (cat.length + 1)⟩

/-- varName.startsWith(cat + "-"): does the property name select this
category? -/
def catMatches (name cat : String) : Bool := leadsWith (cat ++ "-").data name.data

/-- The first registered category the property name matches; the loop of
parseTokens stops at the first hit. -/
def firstMatchCat (cats : List String) (name : String) : Option String :=
  cats.find? (fun cat => catMatches name cat)

/-- tokens[cat][key] = val with JS object semantics, creating the inner
object when the category is new. -/
def tokensInsert (t : DesignTokens) (cat key val : String) : DesignTokens :=
  match lookupA t cat with
  | none => setA t cat [(key, val)]
  | some inner => setA t cat (setA inner key val)

/-- Read tokens[cat][key]. -/
def lookup2 (t : DesignTokens) (cat key : String) : Option String :=
  match lookupA t cat with
  | none => none
  | some inner => lookupA inner key

/-- The loop body of parseTokens for one matched declaration. -/
def classifyStep (cats : List String) (t : DesignTokens) (nv : String × String) :
    DesignTokens :=
  match firstMatchCat cats nv.1 with
  | some cat => tokensInsert t cat (keyAfter cat nv.1) (mkRef nv.1)
  | none => t

/-- The classification loop of parseTokens over all matched declarations. -/
def classifyTokens (cats : List String) (decls : List (String × String)) :
    DesignTokens :=
  decls.foldl (classifyStep cats) []

/-- The declarations of the token source visible to parseTokens: the
custom-property matches inside the first :root block, or nothing when the
root block is absent. -/
def declsOf (css : String) : List (String × String) :=
  match findRootBlock css.data with
  | none => []
  | some block => scanVars block

/-- UtilityGenerator.parseTokens of src/index.ts: classify each declared
custom property of the first :root block into the first matching registered
category; no root block yields the empty token set. -/
def parseTokens (rules : List TokenRule) (css : String) : DesignTokens :=
  match findRootBlock css.data with
  | none => []
  | some block => classifyTokens (tokenCategories rules) (scanVars block)

/-- UtilityGenerator.parseMedia of src/index.ts: the set of already registered
names is computed once up front, and each @custom-media declaration whose name
is not in that set appends a media variant; the set is never extended during
the scan. -/
def parseMedia (variants : List VariantRule) (css : String) : List VariantRule :=
  (scanMedia css.data).foldl
    (fun vs nc =>
      if nc.1 ∈ variants.map variantName then vs
      else vs ++ [VariantRule.media nc.1 (some nc.2)])
    variants

/-- The base rule text emitted by the add closure of UtilityGenerator.build. -/
def entryText (cls css : String) : String := "." ++ cls ++ " \x7b " ++ css ++ " \x7d"

/-- The variant entry produced for one variant and one base class by the add
closure of UtilityGenerator.build: the lookup key paired with the wrapped
text, or nothing when a required field is missing (JS-falsy). -/
def variantEntry (v : VariantRule) (cls css : String) : Option (String × String) :=
  match v with
  | .pseudo name =>
    some (name ++ ":" ++ cls,
      "." ++ name ++ "\\:" ++ cls ++ ":" ++ name ++ " \x7b " ++ css ++ " \x7d")
  | .media name cond =>
    match cond with
    | some c =>
      if c = "" then none
      else
        some (name ++ ":" ++ cls,
          "@media (" ++ c ++ ") \x7b ." ++ name ++ "\\:" ++ cls ++ " \x7b " ++ css ++
            " \x7d \x7d")
    | none => none
  | .ancestor name sel =>
    match sel with
    | some s =>
      if s = "" then none
      else
        some (name ++ ":" ++ cls,
          s ++ " ." ++ name ++ "\\:" ++ cls ++ " \x7b " ++ css ++ " \x7d")
    | none => none

/-- The state threaded through UtilityGenerator.build: the lookup map and the
ordered raw rule list. -/
structure BuildResult where
  map : List (String × String)
  raw : List String
deriving DecidableEq

/-- The add closure of UtilityGenerator.build: set and push the base entry,
then set and push each variant entry whose text is nonempty. -/
def addRule (variants : List VariantRule) (st : BuildResult) (cls css : String) :
    BuildResult :=
  variants.foldl
    (fun st2 v =>
      match variantEntry v cls css with
      | some p => ⟨setA st2.map p.1 p.2, st2.raw ++ [p.2]⟩
      | none => st2)
    ⟨setA st.map cls (entryText cls css), st.raw ++ [entryText cls css]⟩

/-- UtilityGenerator.build of src/index.ts: add every static rule, then for
every token rule whose category is present, add an entry for every token of
the category. -/
def build (rs : RuleSet) (tokens : DesignTokens) : BuildResult :=
  rs.token.foldl
    (fun st r =>
      match lookupA tokens r.token with
      | none => st
      | some inner =>
        inner.foldl
          (fun st2 kv => addRule rs.variant st2 (r.classPrefix ++ kv.1) (r.css kv.1 kv.2))
          st)
    (rs.static.foldl (fun st r => addRule rs.variant st r.className r.css) ⟨[], []⟩)

/-- The (class, body) pairs a token rule contributes, in iteration order. -/
def tokenPairs (tokens : DesignTokens) (r : TokenRule) : List (String × String) :=
  match lookupA tokens r.token with
  | none => []
  | some inner => inner.map (fun kv => (r.classPrefix ++ kv.1, r.css kv.1 kv.2))

/-- Every (class, body) pair passed to the add closure during build, in
order: static rules first, then token rules. -/
def baseEmits (rs : RuleSet) (tokens : DesignTokens) : List (String × String) :=
  rs.static.map (fun r => (r.className, r.css)) ++ (rs.token.map (tokenPairs tokens)).flatten

/-- Every (lookup key, rule text) pair one add call produces, in order: the
base entry, then one entry per variant whose required field is present. -/
def emitsFor (variants : List VariantRule) (cls css : String) : List (String × String) :=
  (cls, entryText cls css) :: variants.filterMap (fun v => variantEntry v cls css)

/-- The full emission sequence of build: every map.set / raw.push pair, in
execution order. -/
def emits (rs : RuleSet) (tokens : DesignTokens) : List (String × String) :=
  ((baseEmits rs tokens).map (fun p => emitsFor rs.variant p.1 p.2)).flatten

/-- One map.set step, pair form. -/
def setPair (m : List (String × String)) (p : String × String) : List (String × String) :=
  setA m p.1 p.2

/-- Fold a run of add calls over a list of (class, body) pairs. -/
def addAll (variants : List VariantRule) (st : BuildResult) (L : List (String × String)) :
    BuildResult :=
  L.foldl (fun st p => addRule variants st p.1 p.2) st

/-- The value of the last emission with the given key, when there is one. -/
def lastVal (L : List (String × String)) (k : String) : Option String :=
  (L.reverse.find? (fun p => decide (p.1 = k))).map (fun p => p.2)

/-- The universe cache entry of src/index.ts. -/
structure UniverseCacheEntry where
  configHash : String
  cssMap : List (String × String)
  rawCss : String
deriving DecidableEq

/-- The md5 content hash over tokenCss + mediaCss + JSON extend + JSON
defaultRules.  The digest is modelled by the hashed preimage itself: the
model abstracts md5 as an injective fingerprint. -/
def computeConfigHash (tokenCss mediaCss extendJson defaultRulesJson : String) : String :=
  tokenCss ++ mediaCss ++ extendJson ++ defaultRulesJson

/-- Array.join of the raw rule list with a newline. -/
def joinNL : List String → String
  | [] => ""
  | [s] => s
  | s :: rest => s ++ "\n" ++ joinNL rest

/-- The UtilityGenerator constructor followed by build: parse the tokens,
extend the variants from the media source, then expand the universe. -/
def regenerate (rs : RuleSet) (tokenCss mediaCss : String) : BuildResult :=
  build ⟨rs.static, rs.token, parseMedia rs.variant mediaCss⟩ (parseTokens rs.token tokenCss)

/-- The universe-cache step of the Once hook: rebuild and replace the entry
exactly when the stored hash differs from the computed one (a missing entry
always differs); the boolean records whether the regeneration branch ran. -/
def universeStep (cache : Option UniverseCacheEntry) (hash : String) (rs : RuleSet)
    (tokenCss mediaCss : String) : Option UniverseCacheEntry × Bool :=
  if cache.map (fun e => e.configHash) ≠ some hash then
    let st := regenerate rs tokenCss mediaCss
    (some ⟨hash, st.map, joinNL st.raw⟩, true)
  else (cache, false)

/-- One entry of the file scan cache: modification time and extracted class
set (mtimeMs, a JS number, is modelled as an integer). -/
structure FileScanEntry where
  mtime : Int
  classes : List String
deriving DecidableEq

/-- The per-file step of the scan loop of the Once hook.  The extracted
argument stands for the classes the extractor finds in the file's current
content; the step returns the classes contributed to the used set and the
updated cache. -/
def fileScanStep (cache : List (String × FileScanEntry)) (path : String) (mtimeNow : Int)
    (extracted : List String) : List String × List (String × FileScanEntry) :=
  match lookupA cache path with
  | some e =>
    if e.mtime = mtimeNow then (e.classes, cache)
    else (extracted, setA cache path ⟨mtimeNow, extracted⟩)
  | none => (extracted, setA cache path ⟨mtimeNow, extracted⟩)

/-- The used-class set of one build pass: the union, as a list, of the class
sets contributed by every scanned file. -/
def usedUnion (perFile : List (List String)) : List String := perFile.flatten

/-- The injection loop of the Once hook: for each used class, push the
universe CSS for it when the lookup map has the key.  The joined result is
what replaces the contents of the utilities-gen layer. -/
def injectLines (used : List String) (m : List (String × String)) : List String :=
  used.filterMap (fun c => lookupA m c)

/-- The used classes whose rule text is injected (the indices of
injectLines). -/
def injectedClasses (used : List String) (m : List (String × String)) : List String :=
  used.filter (fun c => (lookupA m c).isSome)

/-- The keys of an association list. -/
def mapKeys {α : Type} (m : List (String × α)) : List String := m.map (fun p => p.1)

/-- Two registered token rules whose categories stand in a prefix relation
("a" is a proper prefix of "a-b" followed by a hyphen). -/
def rules8 : List TokenRule := [⟨"a", "x-", fun _ v => v⟩, ⟨"a-b", "y-", fun _ v => v⟩]

/-- A token source declaring one custom property whose name matches both
categories of rules8. -/
def css8 : String := ":root \x7b --a-b-c: 1; \x7d"

/-- A media source declaring the same new custom-media name twice. -/
def mediaCss7 : String := "@custom-media --aa (x) @custom-media --aa (y)"

/-- One spacing token rule, mirroring the default p- rule. -/
def rulesW : List TokenRule := [⟨"spacing", "p-", fun _ v => "padding: " ++ v ++ ";"⟩]

/-- A token source declaring one spacing token. -/
def cssW : String := ":root \x7b --spacing-4: 1rem; \x7d"

/-- Two token rules sharing the class prefix border-, mirroring the default
color border- rule followed by the default border-width border- rule. -/
def rsC10 : RuleSet :=
  ⟨[],
   [⟨"color", "border-", fun _ v => "border-color: " ++ v ++ ";"⟩,
    ⟨"border", "border-", fun _ v => "border-width: " ++ v ++ ";"⟩],
   []⟩

/-- Token sets for the color and border categories sharing the key 1. -/
def tokensC10 : DesignTokens :=
  [("color", [("1", "var(--color-1)")]), ("border", [("1", "var(--border-1)")])]

/-- One static rule and one pseudo variant. -/
def rsC2 : RuleSet := ⟨[⟨"flex", "display: flex"⟩], [], [VariantRule.pseudo "hover"]⟩

/-- A file scan cache holding one entry. -/
def cacheC6 : List (String × FileScanEntry) := [("a.tsx", ⟨5, ["flex"]⟩)]

/-- A populated universe cache entry with stored hash "h". -/
def entryC4 : UniverseCacheEntry := ⟨"h", [], ""⟩

/-- The empty rule set. -/
def rsEmpty : RuleSet := ⟨[], [], []⟩

theorem strExt {a b : String} (h : a.data = b.data) : a = b := congrArg String.mk h

theorem strData_append (a b : String) : (a ++ b).data = a.data ++ b.data := rfl

theorem strLen_eq_zero_iff (s : String) : s.length = 0 ↔ s = "" := by
  constructor
  · intro h
    apply strExt
    have hd : s.data = [] := List.length_eq_zero.1 h
    rw [hd]
  · intro h
    subst h
    decide

theorem lookupA_setA_self {α : Type} (m : List (String × α)) (k : String) (v : α) :
    lookupA (setA m k v) k = some v := by
  induction m with
  | nil => simp [setA, lookupA]
  | cons p rest ih =>
    by_cases h : p.1 = k
    · simp [setA, h, lookupA]
    · simp [setA, h, lookupA, ih]

theorem lookupA_setA_ne {α : Type} (m : List (String × α)) (k k' : String) (v : α)
    (h : k' ≠ k) : lookupA (setA m k v) k' = lookupA m k' := by
  have h2 : ¬ (k = k') := fun hh => h hh.symm
  induction m with
  | nil => simp [setA, lookupA, h2]
  | cons p rest ih =>
    by_cases hp : p.1 = k
    · subst hp
      simp [setA, lookupA, h2]
    · simp [setA, hp, lookupA, ih]

theorem lookupA_isSome_iff {α : Type} (m : List (String × α)) (k : String) :
    (lookupA m k).isSome = true ↔ k ∈ mapKeys m := by
  induction m with
  | nil => simp [lookupA, mapKeys]
  | cons p rest ih =>
    by_cases h : p.1 = k
    · simp [lookupA, h, mapKeys]
    · have h2 : ¬ (k = p.1) := fun hh => h hh.symm
      simp [lookupA, h, h2, mapKeys, ih]

theorem orO_none_right {α : Type} (x : Option α) : orO x none = x := by
  cases x <;> rfl

theorem leadsWith_iff (p s : List Char) : leadsWith p s = true ↔ ∃ t, s = p ++ t := by
  induction p generalizing s with
  | nil => simp [leadsWith]
  | cons a ps ih =>
    cases s with
    | nil => simp [leadsWith]
    | cons c cs =>
      simp only [leadsWith, Bool.and_eq_true, decide_eq_true_eq, ih, List.cons_append,
        List.cons.injEq]
      constructor
      · rintro ⟨rfl, t, rfl⟩
        exact ⟨t, rfl, rfl⟩
      · rintro ⟨t, rfl, rfl⟩
        exact ⟨rfl, t, rfl⟩

theorem hasSubstr_subset (pat s : List Char) (h : hasSubstr pat s = true) :
    ∀ c ∈ pat, c ∈ s := by
  induction s with
  | nil =>
    intro c hc
    cases pat with
    | nil => cases hc
    | cons a ps => simp [hasSubstr, leadsWith] at h
  | cons x xs ih =>
    intro c hc
    simp only [hasSubstr, Bool.or_eq_true] at h
    rcases h with h | h
    · rcases (leadsWith_iff pat (x :: xs)).1 h with ⟨t, ht⟩
      rw [ht]
      exact List.mem_append.2 (Or.inl hc)
    · exact List.mem_cons_of_mem _ (ih h c hc)

theorem findQ_append {α : Type} (p : α → Bool) (l1 l2 : List α) :
    (l1 ++ l2).find? p = orO (l1.find? p) (l2.find? p) := by
  induction l1 with
  | nil => simp [orO]
  | cons a l ih =>
    by_cases h : p a
    · simp [List.find?_cons, h, orO]
    · simp [List.find?_cons, h, ih]

theorem catMatches_decomp (name cat : String) (h : catMatches name cat = true) :
    name = cat ++ "-" ++ keyAfter cat name := by
  rcases (leadsWith_iff (cat ++ "-").data name.data).1 h with ⟨t, ht⟩
  apply strExt
  have hlen : (cat ++ "-").data.length = cat.length + 1 := by
    show (cat.data ++ "-".data).length = cat.data.length + 1
    simp
  have hdrop : (keyAfter cat name).data = t := by
    show name.data.drop (cat.length + 1) = t
    rw [ht, ← hlen, List.drop_left]
  show name.data = ((cat ++ "-").data ++ (keyAfter cat name).data)
  rw [hdrop]
  exact ht

theorem lookup2_insert (t : DesignTokens) (cat key val cat' key' : String) :
    lookup2 (tokensInsert t cat key val) cat' key' =
      if cat' = cat ∧ key' = key then some val else lookup2 t cat' key' := by
  unfold tokensInsert
  by_cases hc : cat' = cat
  · subst hc
    cases h : lookupA t cat' with
    | none =>
      simp only [lookup2, lookupA_setA_self, h]
      by_cases hk : key' = key
      · simp [lookupA, hk]
      · have hk2 : ¬ (key = key') := fun hh => hk hh.symm
        simp [lookupA, hk, hk2]
    | some inner =>
      simp only [lookup2, lookupA_setA_self, h]
      by_cases hk : key' = key
      · subst hk
        simp [lookupA_setA_self]
      · simp [lookupA_setA_ne inner key key' val hk, hk]
  · have hsets : ∀ x, lookupA (setA t cat x) cat' = lookupA t cat' :=
      fun x => lookupA_setA_ne t cat cat' x hc
    cases h : lookupA t cat with
    | none => simp [lookup2, hsets, hc]
    | some inner => simp [lookup2, hsets, hc]

theorem lookup2_foldl_classify (cats : List String) (decls : List (String × String))
    (init : DesignTokens) (cat key v : String)
    (h : lookup2 (decls.foldl (classifyStep cats) init) cat key = some v) :
    (∃ nv ∈ decls, firstMatchCat cats nv.1 = some cat ∧ key = keyAfter cat nv.1 ∧
        v = mkRef nv.1) ∨ lookup2 init cat key = some v := by
  induction decls generalizing init with
  | nil => exact Or.inr h
  | cons nv decls ih =>
    rw [List.foldl_cons] at h
    rcases ih (classifyStep cats init nv) h with hmem | hbase
    · obtain ⟨nv', hnv', hrest⟩ := hmem
      exact Or.inl ⟨nv', List.mem_cons_of_mem _ hnv', hrest⟩
    · cases hm : firstMatchCat cats nv.1 with
      | none =>
        simp only [classifyStep, hm] at hbase
        exact Or.inr hbase
      | some cat0 =>
        simp only [classifyStep, hm] at hbase
        rw [lookup2_insert] at hbase
        by_cases hck : cat = cat0 ∧ key = keyAfter cat0 nv.1
        · rw [if_pos hck] at hbase
          obtain ⟨hc, hk⟩ := hck
          subst hc
          exact Or.inl ⟨nv, List.mem_cons_self _ _, hm, hk, (Option.some.inj hbase).symm⟩
        · rw [if_neg hck] at hbase
          exact Or.inr hbase

theorem classify_persist (cats : List String) (decls : List (String × String))
    (init : DesignTokens) (cat key : String)
    (h : lookup2 init cat key = some (mkRef (cat ++ "-" ++ key))) :
    lookup2 (decls.foldl (classifyStep cats) init) cat key =
      some (mkRef (cat ++ "-" ++ key)) := by
  induction decls generalizing init with
  | nil => exact h
  | cons nv decls ih =>
    rw [List.foldl_cons]
    apply ih
    cases hm : firstMatchCat cats nv.1 with
    | none => simpa [classifyStep, hm] using h
    | some cat0 =>
      simp only [classifyStep, hm]
      rw [lookup2_insert]
      by_cases hck : cat = cat0 ∧ key = keyAfter cat0 nv.1
      · rw [if_pos hck]
        obtain ⟨hc, hk⟩ := hck
        subst hc
        have hcm : catMatches nv.1 cat = true := List.find?_some hm
        have hd := catMatches_decomp nv.1 cat hcm
        rw [← hk] at hd
        rw [hd]
      · rw [if_neg hck]
        exact h

theorem classify_mem (cats : List String) (decls : List (String × String))
    (nv : String × String) (cat : String)
    (hmem : nv ∈ decls) (hm : firstMatchCat cats nv.1 = some cat) :
    lookup2 (classifyTokens cats decls) cat (keyAfter cat nv.1) = some (mkRef nv.1) := by
  obtain ⟨s, t, rfl⟩ := List.append_of_mem hmem
  unfold classifyTokens
  rw [List.foldl_append, List.foldl_cons]
  have hcm : catMatches nv.1 cat = true := List.find?_some hm
  have hd := catMatches_decomp nv.1 cat hcm
  have hval : mkRef nv.1 = mkRef (cat ++ "-" ++ keyAfter cat nv.1) := congrArg mkRef hd
  rw [hval]
  apply classify_persist
  simp only [classifyStep, hm]
  rw [lookup2_insert, if_pos ⟨rfl, rfl⟩]
  rw [hval]

theorem addRule_aux (cls css : String) (variants : List VariantRule) (st : BuildResult) :
    variants.foldl
      (fun st2 v =>
        match variantEntry v cls css with
        | some p => ⟨setA st2.map p.1 p.2, st2.raw ++ [p.2]⟩
        | none => st2)
      st =
    ⟨(variants.filterMap (fun v => variantEntry v cls css)).foldl setPair st.map,
     st.raw ++ (variants.filterMap (fun v => variantEntry v cls css)).map (fun p => p.2)⟩ := by
  induction variants generalizing st with
  | nil => simp
  | cons v vs ih =>
    rw [List.foldl_cons, List.filterMap_cons]
    cases hv : variantEntry v cls css with
    | none =>
      simp only [hv]
      exact ih st
    | some p =>
      simp only [hv, List.foldl_cons, List.map_cons]
      rw [ih ⟨setA st.map p.1 p.2, st.raw ++ [p.2]⟩]
      simp [setPair, List.append_assoc]

theorem addRule_eq (variants : List VariantRule) (st : BuildResult) (cls css : String) :
    addRule variants st cls css =
      ⟨(emitsFor variants cls css).foldl setPair st.map,
       st.raw ++ (emitsFor variants cls css).map (fun p => p.2)⟩ := by
  unfold addRule emitsFor
  rw [addRule_aux]
  simp [setPair, List.append_assoc]

theorem addAll_append (variants : List VariantRule) (st : BuildResult)
    (A B : List (String × String)) :
    addAll variants st (A ++ B) = addAll variants (addAll variants st A) B :=
  List.foldl_append _ _ _ _

theorem addAll_eq (variants : List VariantRule) (L : List (String × String)) :
    ∀ st : BuildResult,
      addAll variants st L =
        ⟨((L.map (fun p => emitsFor variants p.1 p.2)).flatten).foldl setPair st.map,
         st.raw ++ ((L.map (fun p => emitsFor variants p.1 p.2)).flatten).map (fun p => p.2)⟩ := by
  induction L with
  | nil => intro st; simp [addAll]
  | cons q L ih =>
    intro st
    show addAll variants (addRule variants st q.1 q.2) L = _
    rw [ih, addRule_eq]
    simp [List.foldl_append, List.append_assoc]

theorem static_fold_eq (variants : List VariantRule) (L : List StaticRule) :
    ∀ st : BuildResult,
      L.foldl (fun st r => addRule variants st r.className r.css) st =
        addAll variants st (L.map (fun r => (r.className, r.css))) := by
  induction L with
  | nil => intro st; rfl
  | cons r L ih =>
    intro st
    rw [List.foldl_cons]
    exact ih (addRule variants st r.className r.css)

theorem inner_fold_eq (variants : List VariantRule) (r : TokenRule)
    (inner : List (String × String)) :
    ∀ st : BuildResult,
      inner.foldl
          (fun st2 kv => addRule variants st2 (r.classPrefix ++ kv.1) (r.css kv.1 kv.2)) st =
        addAll variants st
          (inner.map (fun kv => (r.classPrefix ++ kv.1, r.css kv.1 kv.2))) := by
  induction inner with
  | nil => intro st; rfl
  | cons kv inner ih =>
    intro st
    rw [List.foldl_cons]
    exact ih _

theorem token_fold_eq (variants : List VariantRule) (tokens : DesignTokens)
    (L : List TokenRule) :
    ∀ st : BuildResult,
      L.foldl
          (fun st r =>
            match lookupA tokens r.token with
            | none => st
            | some inner =>
              inner.foldl
                (fun st2 kv => addRule variants st2 (r.classPrefix ++ kv.1) (r.css kv.1 kv.2))
                st)
          st =
        addAll variants st ((L.map (tokenPairs tokens)).flatten) := by
  induction L with
  | nil => intro st; rfl
  | cons r L ih =>
    intro st
    rw [List.foldl_cons, List.map_cons, List.flatten_cons, addAll_append]
    cases h : lookupA tokens r.token with
    | none =>
      simp only [h, tokenPairs]
      exact ih st
    | some inner =>
      simp only [h, tokenPairs]
      rw [inner_fold_eq]
      exact ih _

theorem build_addAll (rs : RuleSet) (tokens : DesignTokens) :
    build rs tokens = addAll rs.variant ⟨[], []⟩ (baseEmits rs tokens) := by
  unfold build baseEmits
  rw [static_fold_eq, token_fold_eq, ← addAll_append]

theorem build_eq (rs : RuleSet) (tokens : DesignTokens) :
    build rs tokens =
      ⟨(emits rs tokens).foldl setPair [], (emits rs tokens).map (fun p => p.2)⟩ := by
  rw [build_addAll, addAll_eq]
  rfl

theorem lookupA_foldl_setPair (k : String) (L : List (String × String)) :
    ∀ m0 : List (String × String),
      lookupA (L.foldl setPair m0) k = orO (lastVal L k) (lookupA m0 k) := by
  induction L with
  | nil => intro m0; simp [lastVal, orO]
  | cons p L ih =>
    intro m0
    rw [List.foldl_cons, ih]
    unfold lastVal
    rw [List.reverse_cons, findQ_append]
    cases hf : (L.reverse.find? fun q => decide (q.1 = k)) with
    | some q => simp [orO]
    | none =>
      simp only [orO, Option.map]
      by_cases h : p.1 = k
      · subst h
        simp [List.find?, setPair, lookupA_setA_self, orO]
      · have h2 : k ≠ p.1 := fun hh => h hh.symm
        simp [List.find?, h, setPair, lookupA_setA_ne _ _ _ _ h2, orO]

theorem lookup_build (rs : RuleSet) (tokens : DesignTokens) (k : String) :
    lookupA (build rs tokens).map k = lastVal (emits rs tokens) k := by
  rw [build_eq]
  show lookupA ((emits rs tokens).foldl setPair []) k = _
  rw [lookupA_foldl_setPair]
  show orO (lastVal (emits rs tokens) k) none = _
  rw [orO_none_right]

theorem filterMap_eq_filter {α β : Type} (f : α → Option β) (l : List α) :
    l.filterMap f = (l.filter (fun a => (f a).isSome)).filterMap f := by
  induction l with
  | nil => rfl
  | cons a l ih =>
    cases hf : f a with
    | none => simp [List.filterMap_cons, List.filter_cons, hf, ih]
    | some b =>
      simp only [List.filterMap_cons, List.filter_cons, hf, Option.isSome_some, if_pos]
      rw [← ih]

theorem foldl_append_filterMap (existing : List String) (L : List (String × String)) :
    ∀ acc : List VariantRule,
      L.foldl
          (fun vs nc =>
            if nc.1 ∈ existing then vs else vs ++ [VariantRule.media nc.1 (some nc.2)])
          acc =
        acc ++ L.filterMap
          (fun nc =>
            if nc.1 ∈ existing then none else some (VariantRule.media nc.1 (some nc.2))) := by
  induction L with
  | nil => intro acc; simp
  | cons nc L ih =>
    intro acc
    rw [List.foldl_cons, List.filterMap_cons]
    by_cases h : nc.1 ∈ existing
    · simp only [if_pos h]
      rw [ih]
    · simp only [if_neg h]
      rw [ih]
      simp [List.append_assoc]

theorem requiredPresent_entry (v : VariantRule) (cls css : String)
    (h : requiredPresent v = true) :
    ∃ p : String × String, variantEntry v cls css = some p ∧
      p.1 = variantName v ++ ":" ++ cls := by
  cases v with
  | pseudo n => exact ⟨_, rfl, rfl⟩
  | media n cond =>
    cases cond with
    | none => simp [requiredPresent, truthy] at h
    | some c =>
      simp only [requiredPresent, truthy, decide_eq_true_eq] at h
      refine ⟨(n ++ ":" ++ cls,
        "@media (" ++ c ++ ") \x7b ." ++ n ++ "\\:" ++ cls ++ " \x7b " ++ css ++
          " \x7d \x7d"), ?_, rfl⟩
      simp [variantEntry, h]
  | ancestor n sel =>
    cases sel with
    | none => simp [requiredPresent, truthy] at h
    | some c =>
      simp only [requiredPresent, truthy, decide_eq_true_eq] at h
      refine ⟨(n ++ ":" ++ cls,
        c ++ " ." ++ n ++ "\\:" ++ cls ++ " \x7b " ++ css ++ " \x7d"), ?_, rfl⟩
      simp [variantEntry, h]

theorem requiredAbsent_entry (v : VariantRule) (h : requiredPresent v = false) :
    ∀ cls css : String, variantEntry v cls css = none := by
  intro cls css
  cases v with
  | pseudo n => simp [requiredPresent] at h
  | media n cond =>
    cases cond with
    | none => rfl
    | some c =>
      simp only [requiredPresent, truthy, decide_eq_false_iff_not, not_not] at h
      simp [variantEntry, h]
  | ancestor n sel =>
    cases sel with
    | none => rfl
    | some c =>
      simp only [requiredPresent, truthy, decide_eq_false_iff_not, not_not] at h
      simp [variantEntry, h]

theorem computeConfigHash_inj (t1 t2 m ex df : String) (h : t1 ≠ t2) :
    computeConfigHash t1 m ex df ≠ computeConfigHash t2 m ex df := by
  intro heq
  apply h
  have hd : t1.data ++ (m.data ++ (ex.data ++ df.data)) =
      t2.data ++ (m.data ++ (ex.data ++ df.data)) := by
    have h0 := congrArg String.data heq
    simpa [computeConfigHash, strData_append, List.append_assoc] using h0
  have hlen : t1.data.length = t2.data.length := by
    have h1 := congrArg List.length hd
    simp only [List.length_append] at h1
    omega
  exact strExt (List.append_inj hd hlen).1

/-- C5: isValidClassName accepts a candidate if and only if it is nonempty, at
most 100 characters, contains no URL marker, no backslash, no leading slash,
no opening paren, brace or bracket, and consists only of letters, digits,
hyphen, underscore, colon and dot; in particular http://example.com is
rejected.  Rejection is by returning false, never by an error. -/
theorem class_filter_characterization :
    (∀ s : String, isValidClassName s = true ↔
      (s ≠ "" ∧ s.length ≤ 100 ∧ hasSubstr "://".data s.data = false ∧
        hasChar s.data '\\' = false ∧ leadsWith "/".data s.data = false ∧
        hasChar s.data '(' = false ∧ hasChar s.data '\x7b' = false ∧
        hasChar s.data '[' = false ∧ s.data.all validChar = true)) ∧
    isValidClassName "http://example.com" = false := by
  constructor
  · intro s
    unfold isValidClassName
    constructor
    · intro h
      by_cases h1 : (decide (s.length = 0) || decide (s.length > 100)) = true
      · rw [if_pos h1] at h
        exact absurd h (by simp)
      · rw [if_neg h1] at h
        by_cases h2 : (hasSubstr "://".data s.data || hasChar s.data '\\' ||
            leadsWith "/".data s.data || hasChar s.data '(' ||
            hasChar s.data '\x7b' || hasChar s.data '[') = true
        · rw [if_pos h2] at h
          exact absurd h (by simp)
        · rw [if_neg h2] at h
          simp only [Bool.or_eq_true, decide_eq_true_eq, not_or, Bool.not_eq_true]
            at h1 h2
          obtain ⟨h1a, h1b⟩ := h1
          obtain ⟨⟨⟨⟨⟨hA, hB⟩, hC⟩, hD⟩, hE⟩, hF⟩ := h2
          exact ⟨fun hs => h1a ((strLen_eq_zero_iff s).2 hs), Nat.le_of_not_lt h1b,
            hA, hB, hC, hD, hE, hF, h⟩
    · rintro ⟨hne, hle, hA, hB, hC, hD, hE, hF, hall⟩
      have hlz : ¬ (s.length = 0) := fun h0 => hne ((strLen_eq_zero_iff s).1 h0)
      have h1 : ¬ ((decide (s.length = 0) || decide (s.length > 100)) = true) := by
        simp only [Bool.or_eq_true, decide_eq_true_eq, not_or]
        exact ⟨hlz, by omega⟩
      have h2 : ¬ ((hasSubstr "://".data s.data || hasChar s.data '\\' ||
          leadsWith "/".data s.data || hasChar s.data '(' ||
          hasChar s.data '\x7b' || hasChar s.data '[') = true) := by
        simp [hA, hB, hC, hD, hE, hF]
      rw [if_neg h1, if_neg h2]
      exact hall
  · decide

/-- C1: A class name X reaches the utilities-gen layer exactly when X is in
the union of the extracted class sets of the scanned files and X is a key of
the universe lookup map; moreover the injected lines are exactly the universe
lookups of those classes, so unused universe entries and unknown used names
contribute nothing. -/
theorem injection_minimality (rs : RuleSet) (tokens : DesignTokens)
    (perFile : List (List String)) (X : String) :
    (X ∈ injectedClasses (usedUnion perFile) (build rs tokens).map ↔
      ((∃ fileSet ∈ perFile, X ∈ fileSet) ∧ X ∈ mapKeys (build rs tokens).map)) ∧
    injectLines (usedUnion perFile) (build rs tokens).map =
      (injectedClasses (usedUnion perFile) (build rs tokens).map).filterMap
        (fun c => lookupA (build rs tokens).map c) := by
  constructor
  · simp only [injectedClasses, usedUnion, List.mem_filter, List.mem_flatten,
      lookupA_isSome_iff]
  · exact filterMap_eq_filter (fun c => lookupA (build rs tokens).map c) (usedUnion perFile)

/-- C6: One step of the file scan loop: an entry whose stored modification
time equals the current one is reused verbatim and the cache is untouched;
otherwise (stale or absent) the file is rescanned and its entry is overwritten
with the current modification time and the freshly extracted classes, leaving
every other entry unchanged. -/
theorem file_scan_cache_correctness (cache : List (String × FileScanEntry)) (path : String)
    (m : Int) (extracted : List String) :
    (∀ e : FileScanEntry, lookupA cache path = some e → e.mtime = m →
        fileScanStep cache path m extracted = (e.classes, cache)) ∧
    (∀ e : FileScanEntry, lookupA cache path = some e → e.mtime ≠ m →
        fileScanStep cache path m extracted = (extracted, setA cache path ⟨m, extracted⟩) ∧
          lookupA (setA cache path ⟨m, extracted⟩) path = some ⟨m, extracted⟩ ∧
          ∀ q : String, q ≠ path →
            lookupA (setA cache path ⟨m, extracted⟩) q = lookupA cache q) ∧
    (lookupA cache path = none →
        fileScanStep cache path m extracted = (extracted, setA cache path ⟨m, extracted⟩) ∧
          lookupA (setA cache path ⟨m, extracted⟩) path = some ⟨m, extracted⟩ ∧
          ∀ q : String, q ≠ path →
            lookupA (setA cache path ⟨m, extracted⟩) q = lookupA cache q) := by
  refine ⟨?_, ?_, ?_⟩
  · intro e he hm
    simp [fileScanStep, he, hm]
  · intro e he hm
    exact ⟨by simp [fileScanStep, he, hm], lookupA_setA_self _ _ _,
      fun q hq => lookupA_setA_ne _ _ _ _ hq⟩
  · intro h
    exact ⟨by simp [fileScanStep, h], lookupA_setA_self _ _ _,
      fun q hq => lookupA_setA_ne _ _ _ _ hq⟩

/-- C6 witness: a cache hit with an unchanged modification time returns the
cached classes and leaves the cache as it was. -/
theorem file_scan_cache_correctness_witness :
    lookupA cacheC6 "a.tsx" = some ⟨5, ["flex"]⟩ ∧
      fileScanStep cacheC6 "a.tsx" 5 ["p-4"] = (["flex"], cacheC6) :=
  ⟨by decide,
    (file_scan_cache_correctness cacheC6 "a.tsx" 5 ["p-4"]).1 ⟨5, ["flex"]⟩ (by decide) rfl⟩

/-- C4: The universe cache entry is replaced exactly when the computed content
hash differs from the stored one (a missing entry always differs); an
unchanged hash keeps the entry untouched with no regeneration; and, with the
hash modelled as an injective fingerprint of its preimage, changing the token
source text alone changes the hash. -/
theorem universe_cache_correctness (cache : Option UniverseCacheEntry) (hash : String)
    (rs : RuleSet) (tokenCss mediaCss : String) :
    ((universeStep cache hash rs tokenCss mediaCss).2 = true ↔
        cache.map (fun e => e.configHash) ≠ some hash) ∧
    (cache.map (fun e => e.configHash) = some hash →
        universeStep cache hash rs tokenCss mediaCss = (cache, false)) ∧
    (cache.map (fun e => e.configHash) ≠ some hash →
        universeStep cache hash rs tokenCss mediaCss =
          (some ⟨hash, (regenerate rs tokenCss mediaCss).map,
            joinNL (regenerate rs tokenCss mediaCss).raw⟩, true)) ∧
    (∀ t1 t2 m ex df : String, t1 ≠ t2 →
        computeConfigHash t1 m ex df ≠ computeConfigHash t2 m ex df) := by
  refine ⟨?_, ?_, ?_, fun t1 t2 m ex df h => computeConfigHash_inj t1 t2 m ex df h⟩
  · unfold universeStep
    split_ifs with h
    · simp [h]
    · simp only [not_not] at h
      simp [h]
  · intro h
    unfold universeStep
    rw [if_neg (by simp [h])]
  · intro h
    unfold universeStep
    rw [if_pos h]

/-- C4 witness: with the stored hash matching the computed one, the populated
cache entry is retained as-is with no regeneration; and two different token
source texts hash differently. -/
theorem universe_cache_correctness_witness :
    Option.map (fun e => e.configHash) (some entryC4) = some "h" ∧
      universeStep (some entryC4) "h" rsEmpty "" "" = (some entryC4, false) ∧
      ("a" : String) ≠ "b" ∧
      computeConfigHash "a" "m" "e" "d" ≠ computeConfigHash "b" "m" "e" "d" :=
  ⟨rfl, (universe_cache_correctness (some entryC4) "h" rsEmpty "" "").2.1 rfl,
    by decide,
    (universe_cache_correctness (some entryC4) "h" rsEmpty "" "").2.2.2 "a" "b" "m" "e" "d"
      (by decide)⟩

/-- C2: For every base class emitted by a static or token rule and every
registered variant whose required field is present, the universe lookup map
holds an entry at key variantName:className; the emitted entry is exactly
the wrapping of the base css body dictated by the variant type. -/
theorem variant_expansion_completeness (rs : RuleSet) (tokens : DesignTokens)
    (cls body : String) (v : VariantRule)
    (hbase : (cls, body) ∈ baseEmits rs tokens) (hv : v ∈ rs.variant)
    (hreq : requiredPresent v = true) :
    ∃ p : String × String, variantEntry v cls body = some p ∧
      p.1 = variantName v ++ ":" ++ cls ∧ p ∈ emits rs tokens ∧
      (lookupA (build rs tokens).map p.1).isSome = true := by
  obtain ⟨p, hp, hp1⟩ := requiredPresent_entry v cls body hreq
  have hpe : p ∈ emits rs tokens := by
    unfold emits
    rw [List.mem_flatten]
    refine ⟨emitsFor rs.variant cls body, List.mem_map.2 ⟨(cls, body), hbase, rfl⟩, ?_⟩
    exact List.mem_cons_of_mem _ (List.mem_filterMap.2 ⟨v, hv, hp⟩)
  refine ⟨p, hp, hp1, hpe, ?_⟩
  rw [lookup_build]
  have hfind : ((emits rs tokens).reverse.find? fun q => decide (q.1 = p.1)).isSome = true :=
    List.find?_isSome.2 ⟨p, List.mem_reverse.2 hpe, by simp⟩
  obtain ⟨q, hq⟩ := Option.isSome_iff_exists.1 hfind
  unfold lastVal
  rw [hq]
  rfl

/-- C2 witness: for the static class flex and the pseudo variant hover, the
universe lookup map of the build holds the key hover:flex. -/
theorem variant_expansion_completeness_witness :
    ("flex", "display: flex") ∈ baseEmits rsC2 [] ∧
      VariantRule.pseudo "hover" ∈ rsC2.variant ∧
      requiredPresent (VariantRule.pseudo "hover") = true ∧
      (lookupA (build rsC2 []).map "hover:flex").isSome = true := by
  refine ⟨by decide, by decide, rfl, ?_⟩
  obtain ⟨p, hp, hp1, hpe, hlook⟩ :=
    variant_expansion_completeness rsC2 [] "flex" "display: flex"
      (VariantRule.pseudo "hover") (by decide) (by decide) rfl
  rw [hp1] at hlook
  rw [(by decide : variantName (VariantRule.pseudo "hover") ++ ":" ++ "flex" = "hover:flex")]
    at hlook
  exact hlook

/-- C9: A media variant with a missing or empty condition, or an ancestor
variant with a missing or empty selector, contributes no universe entry for
any base class, and removing it from the variant list leaves the build result
(lookup map and raw list) unchanged, so every other entry is still produced;
no error is raised (the model is total). -/
theorem malformed_variant_skipped (S : List StaticRule) (T : List TokenRule)
    (vs1 vs2 : List VariantRule) (v : VariantRule) (tokens : DesignTokens)
    (hbad : requiredPresent v = false) :
    build ⟨S, T, vs1 ++ v :: vs2⟩ tokens = build ⟨S, T, vs1 ++ vs2⟩ tokens ∧
      ∀ cls css : String, variantEntry v cls css = none := by
  have hnone := requiredAbsent_entry v hbad
  refine ⟨?_, hnone⟩
  rw [build_eq, build_eq]
  have hbase : baseEmits ⟨S, T, vs1 ++ v :: vs2⟩ tokens = baseEmits ⟨S, T, vs1 ++ vs2⟩ tokens :=
    rfl
  have hemits : emits ⟨S, T, vs1 ++ v :: vs2⟩ tokens = emits ⟨S, T, vs1 ++ vs2⟩ tokens := by
    show ((baseEmits ⟨S, T, vs1 ++ v :: vs2⟩ tokens).map
        (fun p => emitsFor (vs1 ++ v :: vs2) p.1 p.2)).flatten =
      ((baseEmits ⟨S, T, vs1 ++ vs2⟩ tokens).map
        (fun p => emitsFor (vs1 ++ vs2) p.1 p.2)).flatten
    rw [hbase]
    have hfun : (fun p : String × String => emitsFor (vs1 ++ v :: vs2) p.1 p.2) =
        (fun p : String × String => emitsFor (vs1 ++ vs2) p.1 p.2) := by
      funext p
      unfold emitsFor
      rw [List.filterMap_append, List.filterMap_append, List.filterMap_cons, hnone p.1 p.2]
    rw [hfun]
  rw [hemits]

/-- C9 witness: a media variant with an absent condition is skipped and the
build is the same as without it. -/
theorem malformed_variant_skipped_witness :
    requiredPresent (VariantRule.media "dark" none) = false ∧
      build ⟨[⟨"flex", "display: flex"⟩], [], [VariantRule.media "dark" none]⟩ [] =
        build ⟨[⟨"flex", "display: flex"⟩], [], []⟩ [] :=
  ⟨rfl, (malformed_variant_skipped [⟨"flex", "display: flex"⟩] [] [] []
    (VariantRule.media "dark" none) [] rfl).1⟩

/-- C10: The universe lookup map resolves every key to the css of the last
emission with that key while the raw list keeps every emission in order;
concretely, two default-style token rules that both emit the class border-1
leave one map entry (the later border-width body) against two raw lines, so
the map is strictly smaller than the raw list. -/
theorem lookup_map_last_wins :
    (∀ (rs : RuleSet) (tokens : DesignTokens) (k : String),
        lookupA (build rs tokens).map k = lastVal (emits rs tokens) k) ∧
    (∀ (rs : RuleSet) (tokens : DesignTokens),
        (build rs tokens).raw = (emits rs tokens).map (fun p => p.2)) ∧
    (build rsC10 tokensC10).map.length = 1 ∧
    (build rsC10 tokensC10).raw.length = 2 ∧
    (build rsC10 tokensC10).map.length < (build rsC10 tokensC10).raw.length ∧
    lookupA (build rsC10 tokensC10).map "border-1" =
      some ".border-1 \x7b border-width: var(--border-1); \x7d" ∧
    (build rsC10 tokensC10).raw =
      [".border-1 \x7b border-color: var(--color-1); \x7d",
       ".border-1 \x7b border-width: var(--border-1); \x7d"] := by
  refine ⟨lookup_build, ?_, by decide, by decide, by decide, by decide, by decide⟩
  intro rs tokens
  rw [build_eq]

/-- C3 counterexample: with categories a and a-b registered in that order, the
declared custom property --a-b-c matches the registered category a-b, yet the
parser records nothing under tokens[a-b][c]; the declaration is recorded under
the earlier-registered category a instead. -/
theorem token_parser_first_match_counterexample :
    declsOf css8 = [("a-b-c", "1")] ∧
      "a-b" ∈ tokenCategories rules8 ∧
      catMatches "a-b-c" "a-b" = true ∧
      keyAfter "a-b" "a-b-c" = "c" ∧
      lookup2 (parseTokens rules8 css8) "a-b" "c" = none ∧
      lookup2 (parseTokens rules8 css8) "a" "b-c" = some "var(--a-b-c)" := by
  refine ⟨by decide, by decide, by decide, by decide, by decide, by decide⟩

/-- C3 amended: for every declared custom property of the root block, the
parser records the var reference (never the literal value) under the FIRST
registered category the name matches; every recorded entry arises from such a
declaration, so declarations matching no registered category are ignored
without error; and a text with no root block yields the empty token set. -/
theorem token_parser_contract_amended (rules : List TokenRule) (css : String) :
    (∀ nv ∈ declsOf css, ∀ cat : String,
        firstMatchCat (tokenCategories rules) nv.1 = some cat →
        lookup2 (parseTokens rules css) cat (keyAfter cat nv.1) = some (mkRef nv.1)) ∧
    (∀ cat key v : String,
        lookup2 (parseTokens rules css) cat key = some v →
        ∃ nv ∈ declsOf css, firstMatchCat (tokenCategories rules) nv.1 = some cat ∧
          key = keyAfter cat nv.1 ∧ v = mkRef nv.1) ∧
    (findRootBlock css.data = none → parseTokens rules css = []) := by
  refine ⟨?_, ?_, ?_⟩
  · intro nv hmem cat hm
    cases hroot : findRootBlock css.data with
    | none => simp [declsOf, hroot] at hmem
    | some block =>
      simp only [declsOf, hroot] at hmem
      simp only [parseTokens, hroot]
      exact classify_mem _ _ nv cat hmem hm
  · intro cat key v h
    cases hroot : findRootBlock css.data with
    | none =>
      simp only [parseTokens, hroot] at h
      simp [lookup2, lookupA] at h
    | some block =>
      simp only [parseTokens, hroot] at h
      rcases lookup2_foldl_classify _ _ _ _ _ _ h with hfound | hbase
      · obtain ⟨nv, hnv, hrest⟩ := hfound
        exact ⟨nv, by simp [declsOf, hroot, hnv], hrest⟩
      · simp [lookup2, lookupA] at hbase
  · intro h
    simp [parseTokens, h]

/-- C3 witness: the spacing token declaration --spacing-4 is recorded as the
reference var(--spacing-4) under tokens[spacing][4]. -/
theorem token_parser_contract_amended_witness :
    ("spacing-4", "1rem") ∈ declsOf cssW ∧
      firstMatchCat (tokenCategories rulesW) "spacing-4" = some "spacing" ∧
      lookup2 (parseTokens rulesW cssW) "spacing" "4" = some "var(--spacing-4)" := by
  refine ⟨by decide, by decide, ?_⟩
  have h := (token_parser_contract_amended rulesW cssW).1 ("spacing-4", "1rem")
    (by decide) "spacing" (by decide)
  rw [(by decide : keyAfter "spacing" "spacing-4" = "4"),
    (by decide : mkRef "spacing-4" = "var(--spacing-4)")] at h
  exact h

/-- C7 counterexample: the media source declares the new name aa twice; the
set of existing names is computed once before the loop and never extended, so
both declarations are appended and the auto-added variant name aa is
duplicated, contrary to the claim that previously auto-added names are
checked. -/
theorem media_variant_duplicate_counterexample :
    scanMedia mediaCss7.data = [("aa", "x"), ("aa", "y")] ∧
      parseMedia [] mediaCss7 =
        [VariantRule.media "aa" (some "x"), VariantRule.media "aa" (some "y")] ∧
      (parseMedia [] mediaCss7).map variantName = ["aa", "aa"] ∧
      ¬ ((parseMedia [] mediaCss7).map variantName).Nodup := by
  refine ⟨by decide, by decide, by decide, by decide⟩

/-- C7 amended: parseMedia appends one media variant per scanned declaration
whose name is not among the variant names registered BEFORE the scan (built-in
plus extended); pre-existing variants are never overridden (they are preserved
as a prefix), but names auto-added earlier in the same scan are not consulted,
so repeated declarations of the same new name are each appended. -/
theorem media_variant_merge_amended (variants : List VariantRule) (css : String) :
    parseMedia variants css =
      variants ++ (scanMedia css.data).filterMap
        (fun nc =>
          if nc.1 ∈ variants.map variantName then none
          else some (VariantRule.media nc.1 (some nc.2))) := by
  unfold parseMedia
  exact foldl_append_filterMap (variants.map variantName) (scanMedia css.data) variants

/-- C8: When a declared property name matches more than one registered
category prefix, the parser records it under the first matching category in
registration order (categories deduplicated preserving first occurrence) and
under no other matching category. -/
theorem token_category_tie_break (rules : List TokenRule) (css : String)
    (nv : String × String) (cat1 : String)
    (hmem : nv ∈ declsOf css)
    (hm : firstMatchCat (tokenCategories rules) nv.1 = some cat1) :
    lookup2 (parseTokens rules css) cat1 (keyAfter cat1 nv.1) = some (mkRef nv.1) ∧
      ∀ cat2 ∈ tokenCategories rules, catMatches nv.1 cat2 = true → cat2 ≠ cat1 →
        lookup2 (parseTokens rules css) cat2 (keyAfter cat2 nv.1) = none := by
  constructor
  · cases hroot : findRootBlock css.data with
    | none => simp [declsOf, hroot] at hmem
    | some block =>
      simp only [declsOf, hroot] at hmem
      simp only [parseTokens, hroot]
      exact classify_mem _ _ nv cat1 hmem hm
  · intro cat2 hcat2 hmatch2 hne
    cases hroot : findRootBlock css.data with
    | none => simp [declsOf, hroot] at hmem
    | some block =>
      simp only [parseTokens, hroot]
      cases hl : lookup2 (classifyTokens (tokenCategories rules) (scanVars block)) cat2
          (keyAfter cat2 nv.1) with
      | none => rfl
      | some v =>
        exfalso
        have hchar := lookup2_foldl_classify _ _ _ _ _ _ hl
        rcases hchar with hfound | hbase
        · obtain ⟨nv', hnv', hm', hkey', hval'⟩ := hfound
          have hd1 : nv.1 = cat2 ++ "-" ++ keyAfter cat2 nv.1 :=
            catMatches_decomp nv.1 cat2 hmatch2
          have hcm' : catMatches nv'.1 cat2 = true := List.find?_some hm'
          have hd2 : nv'.1 = cat2 ++ "-" ++ keyAfter cat2 nv'.1 :=
            catMatches_decomp nv'.1 cat2 hcm'
          have hsame : nv'.1 = nv.1 := by
            rw [hd2, ← hkey', ← hd1]
          rw [hsame] at hm'
          rw [hm'] at hm
          exact hne (Option.some.inj hm)
        · simp [lookup2, lookupA] at hbase

/-- C8 witness: --a-b-c with categories a then a-b goes to tokens[a][b-c] and
leaves tokens[a-b][c] empty. -/
theorem token_category_tie_break_witness :
    ("a-b-c", "1") ∈ declsOf css8 ∧
      firstMatchCat (tokenCategories rules8) "a-b-c" = some "a" ∧
      "a-b" ∈ tokenCategories rules8 ∧ catMatches "a-b-c" "a-b" = true ∧
      ("a-b" : String) ≠ "a" ∧
      lookup2 (parseTokens rules8 css8) "a" "b-c" = some "var(--a-b-c)" ∧
      lookup2 (parseTokens rules8 css8) "a-b" "c" = none := by
  have h := token_category_tie_break rules8 css8 ("a-b-c", "1") "a" (by decide) (by decide)
  refine ⟨by decide, by decide, by decide, by decide, by decide, ?_, ?_⟩
  · have h1 := h.1
    rw [(by decide : keyAfter "a" "a-b-c" = "b-c"),
      (by decide : mkRef "a-b-c" = "var(--a-b-c)")] at h1
    exact h1
  · have h2 := h.2 "a-b" (by decide) (by decide) (by decide)
    rw [(by decide : keyAfter "a-b" "a-b-c" = "c")] at h2
    exact h2
